import Mathlib

/-!
Verification of the text-image adjacency detection engine of the
file-processing service (`DocumentAnalysisService`).

Strings are modelled as `List Char` (JS strings are sequences of UTF-16
code units; none of the verified code splits surrogate pairs, so a
character list is a faithful model).  JS numbers are modelled as `ℚ`;
every arithmetic operation appearing in the verified code is exact on
the inputs considered.  JS regular-expression passes are modelled as
left-to-right scanners; each scanner carries a `Nat` fuel argument equal
to the length of its input so that all definitions are structurally
recursive and fully executable.  Every scanner consumes at least one
character per step, so the fuel (initialised to the input length) is
never exhausted on the call paths used by the wrappers.
-/

set_option maxRecDepth 20000

namespace FileProcessing

/-- The character class of the JS `\s` regex escape (also the set trimmed
by `String.prototype.trim`). -/
def isWs (c : Char) : Bool :=
  c = ' ' || c = '\t' || c = '\n' || c = '\x0b' || c = '\x0c' || c = '\r' ||
  c = '\u00a0' || c = '\u1680' ||
  ('\u2000' ≤ c && c ≤ '\u200a') ||
  c = '\u2028' || c = '\u2029' || c = '\u202f' || c = '\u205f' ||
  c = '\u3000' || c = '\ufeff'

/-- JS line terminators: the characters NOT matched by `.` in a regex
without the `s` flag. -/
def isLineTerm (c : Char) : Bool :=
  c = '\n' || c = '\r' || c = '\u2028' || c = '\u2029'

/-- `String.prototype.trim`. -/
def trimL (s : List Char) : List Char :=
  ((s.dropWhile isWs).reverse.dropWhile isWs).reverse

/-- ASCII case folding used by the `i` regex flag on the tag names that
occur in the verified patterns (all ASCII). -/
def lowerAscii (c : Char) : Char :=
  if 'A' ≤ c && c ≤ 'Z' then Char.ofNat (c.toNat + 32) else c

/-- Case-insensitive prefix test: `pat` (given in lowercase) is a prefix
of `s` up to ASCII case. -/
def ciIsPrefix : List Char → List Char → Bool
  | [], _ => true
  | _ :: _, [] => false
  | p :: ps, c :: cs => lowerAscii c = p && ciIsPrefix ps cs

/-- `String.prototype.indexOf`: index of the first occurrence of `pat`. -/
def firstIdx (pat : List Char) : List Char → Option Nat
  | [] => if pat.isPrefixOf ([] : List Char) then some 0 else none
  | c :: cs => if pat.isPrefixOf (c :: cs) then some 0 else (firstIdx pat cs).map (· + 1)

/-- `String.prototype.includes`. -/
def containsSub (s sub : List Char) : Bool :=
  (firstIdx sub s).isSome

/-- `String.prototype.split` with a non-empty literal separator:
non-overlapping, left-to-right.  Fuel-driven scanner; the wrapper
`splitOnL` passes the input length as fuel, which is always sufficient
because each round consumes at least `sep.length ≥ 1` characters. -/
def splitOnLF (sep : List Char) : Nat → List Char → List (List Char)
  | 0, s => [s]
  | fuel + 1, s =>
    match firstIdx sep s with
    | none => [s]
    | some i => s.take i :: splitOnLF sep fuel (s.drop (i + sep.length))

/-- `String.prototype.split` with a literal separator (the empty
separator splits into single characters, as in JS). -/
def splitOnL (s sep : List Char) : List (List Char) :=
  if sep = [] then s.map (fun c => [c]) else splitOnLF sep s.length s

/-- The literal placeholder token `[image]`. -/
def imageTok : List Char := "[image]".data

/-- `DocumentAnalysisService.isFollowedByImage`, split-based version
(part_003 lines 1203-1219): split on every occurrence of `givenStr` and
accept iff some segment following an occurrence starts with `[image]`. -/
def isFollowedByImage (originalStr givenStr : List Char) : Bool :=
  if originalStr = [] || givenStr = [] then false
  else
    let parts := splitOnL originalStr givenStr
    if parts.length ≤ 1 then false
    else (parts.tail).any (fun seg => imageTok.isPrefixOf seg)

/-- `DocumentAnalysisService.isFollowedByImage`, indexOf-based version
(part_002 lines 1065-1080): only the first occurrence of `givenStr` is
inspected; `substring(endPos, endPos + 7) === '[image]'`. -/
def isFollowedByImageFirst (originalStr givenStr : List Char) : Bool :=
  if givenStr = [] then false
  else
    match firstIdx givenStr originalStr with
    | none => false
    | some i => ((originalStr.drop (i + givenStr.length)).take 7) == imageTok

/-! ### The HTML normalizer `extractTextFromHtml` (part_003 lines 1126-1201)

Each JS regex `replace` pass is modelled by a left-to-right scanner: at
every position it attempts the pattern; on success it emits the
replacement and resumes after the match, otherwise it emits the current
character and advances by one.  This is exactly the semantics of a
global `RegExp` replace for the deterministic patterns used here. -/

/-- Global replace of `<nm[^>]*>` (case-insensitive on the tag name) by
`[image]`: on `<` followed by `nm` (up to ASCII case), the match extends
through the first subsequent `>` (the greedy `[^>]*` cannot cross `>`);
without a `>` there is no match at this position. -/
def replaceOpenTagF (nm : List Char) : Nat → List Char → List Char
  | 0, s => s
  | _ + 1, [] => []
  | fuel + 1, c :: cs =>
    if c = '<' && ciIsPrefix nm cs then
      match firstIdx ['>'] (cs.drop nm.length) with
      | some j => imageTok ++ replaceOpenTagF nm fuel ((cs.drop nm.length).drop (j + 1))
      | none => c :: replaceOpenTagF nm fuel cs
    else c :: replaceOpenTagF nm fuel cs

def replaceOpenTag (nm s : List Char) : List Char :=
  replaceOpenTagF nm s.length s

/-- Earliest index where `</nm>` starts (case-insensitive), reachable
from the scan position without crossing a line terminator — the
behaviour of the non-greedy `.*?` (dot does not match line terminators)
followed by the literal close tag. -/
def findCloseNoNl (nm : List Char) : List Char → Option Nat
  | [] => none
  | c :: cs =>
    if c = '<' && ciIsPrefix ('/' :: nm) cs && (cs.drop (nm.length + 1)).head? = some '>' then
      some 0
    else if isLineTerm c then none
    else ((findCloseNoNl nm) cs).map (· + 1)

/-- Global replace of `<nm[^>]*>.*?</nm>` (case-insensitive, dot not
matching line terminators) by `[image]`. -/
def replacePairTagF (nm : List Char) : Nat → List Char → List Char
  | 0, s => s
  | _ + 1, [] => []
  | fuel + 1, c :: cs =>
    if c = '<' && ciIsPrefix nm cs then
      match firstIdx ['>'] (cs.drop nm.length) with
      | some j =>
        let body := (cs.drop nm.length).drop (j + 1)
        match findCloseNoNl nm body with
        | some k =>
          imageTok ++ replacePairTagF nm fuel ((body.drop k).drop (nm.length + 3))
        | none => c :: replacePairTagF nm fuel cs
      | none => c :: replacePairTagF nm fuel cs
    else c :: replacePairTagF nm fuel cs

def replacePairTag (nm s : List Char) : List Char :=
  replacePairTagF nm s.length s

/-- Global replace of `<[^>]*>` by the empty string. -/
def stripTagsF : Nat → List Char → List Char
  | 0, s => s
  | _ + 1, [] => []
  | fuel + 1, c :: cs =>
    if c = '<' then
      match firstIdx ['>'] cs with
      | some j => stripTagsF fuel (cs.drop (j + 1))
      | none => c :: stripTagsF fuel cs
    else c :: stripTagsF fuel cs

def stripTags (s : List Char) : List Char :=
  stripTagsF s.length s

/-- Global replace of the literal string `pat` by `repl`
(left-to-right, non-overlapping), as `new RegExp(pat, 'g')` for the
entity strings, which contain no regex metacharacters. -/
def replaceAllLF (pat repl : List Char) : Nat → List Char → List Char
  | 0, s => s
  | _ + 1, [] => []
  | fuel + 1, c :: cs =>
    if pat ≠ [] && pat.isPrefixOf (c :: cs) then
      repl ++ replaceAllLF pat repl fuel ((c :: cs).drop pat.length)
    else c :: replaceAllLF pat repl fuel cs

def replaceAllL (pat repl s : List Char) : List Char :=
  replaceAllLF pat repl s.length s

/-- The fixed entity table, in the insertion order of the JS object
(`Object.entries` iterates string keys in insertion order). -/
def entityTable : List (List Char × List Char) :=
  [("&amp;".data, "&".data), ("&lt;".data, "<".data), ("&gt;".data, ">".data),
   ("&quot;".data, "\"".data), ("&#039;".data, "'".data), ("&nbsp;".data, " ".data),
   ("&copy;".data, "©".data), ("&reg;".data, "®".data), ("&trade;".data, "™".data),
   ("&hellip;".data, "...".data), ("&mdash;".data, "—".data), ("&ndash;".data, "–".data),
   ("&lsquo;".data, "'".data), ("&rsquo;".data, "'".data),
   ("&ldquo;".data, "\"".data), ("&rdquo;".data, "\"".data)]

/-- Sequential decoding of the entity table (one global replace per
entry, in table order). -/
def decodeEntities (s : List Char) : List Char :=
  entityTable.foldl (fun acc e => replaceAllL e.1 e.2 acc) s

/-- Global replace of `\s+` by a single space. -/
def collapseWsF : Nat → List Char → List Char
  | 0, s => s
  | _ + 1, [] => []
  | fuel + 1, c :: cs =>
    if isWs c then ' ' :: collapseWsF fuel (cs.dropWhile isWs)
    else c :: collapseWsF fuel cs

def collapseWs (s : List Char) : List Char :=
  collapseWsF s.length s

/-- Match of `\[image\]\s*\[image\]` at the head of `s`; returns the
remainder after the match.  The greedy `\s*` is forced: `[` is not
whitespace, so only the maximal whitespace run can be followed by the
second token. -/
def matchImagePair (s : List Char) : Option (List Char) :=
  if imageTok.isPrefixOf s then
    let r := (s.drop 7).dropWhile isWs
    if imageTok.isPrefixOf r then some (r.drop 7) else none
  else none

/-- Global replace of `\[image\]\s*\[image\]` by `[image]` (a single
left-to-right, non-overlapping pass). -/
def collapseImagePairsF : Nat → List Char → List Char
  | 0, s => s
  | _ + 1, [] => []
  | fuel + 1, c :: cs =>
    match matchImagePair (c :: cs) with
    | some rest => imageTok ++ collapseImagePairsF fuel rest
    | none => c :: collapseImagePairsF fuel cs

def collapseImagePairs (s : List Char) : List Char :=
  collapseImagePairsF s.length s

/-- `DocumentAnalysisService.extractTextFromHtml` (part_003 lines
1126-1201): trim, replace image-bearing tags by `[image]`, strip the
remaining tags, decode entities, collapse whitespace, trim and collapse
adjacent placeholder pairs. -/
def extractTextFromHtml (htmlContent : List Char) : List Char :=
  if htmlContent = [] then []
  else
    let processed := trimL htmlContent
    if processed = [] then []
    else
      let p1 := replaceOpenTag "img".data processed
      let p2 := replaceOpenTag "image".data p1
      let p3 := replacePairTag "picture".data p2
      let p4 := replacePairTag "figure".data p3
      let p5 := replacePairTag "svg".data p4
      let p6 := replacePairTag "canvas".data p5
      let p7 := stripTags p6
      let p8 := decodeEntities p7
      let p9 := trimL (collapseWs p8)
      collapseImagePairs p9

/-! ### Geometric model and text similarity (part_003 lines 332-652)

JS numbers are modelled as `ℚ`.  The only non-rational operation in the
source is `Math.sqrt` inside `calculateDistance`; a comparison
`Math.sqrt(d) <= r` is encoded as the exactly equivalent rational
condition `0 ≤ r ∧ d ≤ r * r` (see `distanceLe_iff_sqrt`), and the
`distance` field stored in an `ImageDetail` is recorded as its square
(`Real.sqrt` is injective on nonnegatives, so no information is lost). -/

structure Position where
  x : ℚ
  y : ℚ
  width : ℚ
  height : ℚ
deriving DecidableEq

/-- An entry of `contentInfo.imagePositions`: `{position, type, index}`. -/
structure ImageRecord where
  position : Position
  type : String
  index : Nat
deriving DecidableEq

/-- An entry of `contentInfo.textContent`: `{page, text, position}`. -/
structure TextItem where
  page : Nat
  text : List Char
  position : Position
deriving DecidableEq

/-- The document content model used by the analysis functions (only the
fields they read). -/
structure ContentInfo where
  textContent : List TextItem
  imagePositions : List ImageRecord
deriving DecidableEq

/-- The square of `calculateDistance` (which returns
`Math.sqrt(dx*dx + dy*dy)`). -/
def calculateDistanceSq (pos1 pos2 : Position) : ℚ :=
  (pos1.x - pos2.x) * (pos1.x - pos2.x) + (pos1.y - pos2.y) * (pos1.y - pos2.y)

/-- `calculateDistance pos1 pos2 ≤ r`, i.e.
`Math.sqrt(dx*dx+dy*dy) <= r`, encoded rationally. -/
def distanceLe (pos1 pos2 : Position) (r : ℚ) : Bool :=
  decide (0 ≤ r ∧ calculateDistanceSq pos1 pos2 ≤ r * r)

/-- `DocumentAnalysisService.isImageBelowText` (part_003 lines 414-424). -/
def isImageBelowText (textPosition imagePosition : Position) (lineHeight : ℚ) : Bool :=
  let textBottom := textPosition.y + textPosition.height
  let imageTop := imagePosition.y
  let minDistance := lineHeight * 0.5
  let maxDistance := lineHeight * 3
  decide (textBottom + minDistance ≤ imageTop ∧ imageTop ≤ textBottom + maxDistance)

/-- `DocumentAnalysisService.findImagesAfterText` (part_003 lines
396-405): keep the images that are both within `searchRadius` and below
the text. -/
def findImagesAfterText (imagePositions : List ImageRecord) (textPosition : Position)
    (searchRadius lineHeight : ℚ) : List ImageRecord :=
  imagePositions.filter fun img =>
    distanceLe textPosition img.position searchRadius &&
    isImageBelowText textPosition img.position lineHeight

/-- `DocumentAnalysisService.getRelativePosition`. -/
def getRelativePosition (textPosition imagePosition : Position) : String :=
  let textCenterX := textPosition.x + textPosition.width / 2
  let imageCenterX := imagePosition.x + imagePosition.width / 2
  let horizontalPosition :=
    if imageCenterX < textCenterX - 50 then "left"
    else if imageCenterX > textCenterX + 50 then "right"
    else "center"
  "图片位于文字" ++ horizontalPosition ++ "下方"

/-- JS `String.prototype.toLowerCase`, character-wise (all verified
inputs are ASCII-cased). -/
def toLowerL (s : List Char) : List Char :=
  s.map Char.toLower

/-- JS `split(/\s+/)`: maximal whitespace runs separate the fields; a
leading (resp. trailing) separator contributes a leading (resp.
trailing) empty field, and `"".split(/\s+/)` is `[""]`. -/
def splitWsF : Nat → List Char → List (List Char)
  | 0, s => [s]
  | fuel + 1, s =>
    let field := s.takeWhile (fun c => !isWs c)
    let rest := s.dropWhile (fun c => !isWs c)
    match rest with
    | [] => [field]
    | _ :: _ => field :: splitWsF fuel (rest.dropWhile isWs)

def splitWs (s : List Char) : List (List Char) :=
  splitWsF s.length s

/-- `DocumentAnalysisService.calculateSimilarity` (part_003 lines
475-496): identical strings give 1, an empty side gives 0, otherwise
the word-overlap count of `text1`'s words inside `text2`'s word list
divided by the larger word count. -/
def calculateSimilarity (text1 text2 : List Char) : ℚ :=
  if text1 = text2 then 1
  else if text1 = [] || text2 = [] then 0
  else
    let words1 := splitWs text1
    let words2 := splitWs text2
    let commonWords := words1.filter (fun word => words2.contains word)
    let totalWords := max words1.length words2.length
    if 0 < totalWords then (commonWords.length : ℚ) / (totalWords : ℚ) else 0

/-- `DocumentAnalysisService.isTextMatch`: lowercased-trimmed substring
containment, else similarity against the tolerance. -/
def isTextMatch (text targetText : List Char) (tolerance : ℚ) : Bool :=
  if text = [] || targetText = [] then false
  else
    let normalizedText := trimL (toLowerL text)
    let normalizedTarget := trimL (toLowerL targetText)
    if containsSub normalizedText normalizedTarget then true
    else decide (tolerance ≤ calculateSimilarity normalizedText normalizedTarget)

/-- `DocumentAnalysisService.calculateTextConfidence`: similarity of the
lowercased (NOT trimmed) strings. -/
def calculateTextConfidence (text targetText : List Char) : ℚ :=
  calculateSimilarity (toLowerL text) (toLowerL targetText)

/-- Options of `analyzeTextImageRelationship`, with the source defaults. -/
structure AnalyzeOptions where
  searchRadius : ℚ := 100
  tolerance : ℚ := 0.8
  lineHeight : ℚ := 20
  fuzzyMatch : Bool := false
deriving DecidableEq

/-- An entry of `results.imageDetails`; `distanceSq` records the square
of the stored Euclidean `distance`. -/
structure ImageDetail where
  position : Position
  type : String
  index : Nat
  distanceSq : ℚ
  isBelowText : Bool
  relativePosition : String
deriving DecidableEq

/-- The result record of `analyzeTextImageRelationship`. -/
structure AnalysisResult where
  targetText : List Char
  foundText : Bool
  hasImageAfter : Bool
  imageDetails : List ImageDetail
  textPosition : Option Position
  confidence : ℚ
  analysisMethod : String
deriving DecidableEq

/-- The initial `results` record of `analyzeTextImageRelationship`,
returned unchanged when no text block matches. -/
def defaultAnalysisResult (targetText : List Char) : AnalysisResult :=
  { targetText := targetText, foundText := false, hasImageAfter := false,
    imageDetails := [], textPosition := none, confidence := 0,
    analysisMethod := "position_based" }

/-- The per-block match test of the `analyzeTextImageRelationship` loop:
tolerance is used when `fuzzyMatch`, otherwise 1.0. -/
def blockMatches (targetText : List Char) (options : AnalyzeOptions) (textItem : TextItem) : Bool :=
  if options.fuzzyMatch then isTextMatch textItem.text targetText options.tolerance
  else isTextMatch textItem.text targetText 1

/-- The `imageDetails` entry built for a qualifying image. -/
def mkImageDetail (textPosition : Position) (lineHeight : ℚ) (img : ImageRecord) : ImageDetail :=
  { position := img.position, type := img.type, index := img.index,
    distanceSq := calculateDistanceSq textPosition img.position,
    isBelowText := isImageBelowText textPosition img.position lineHeight,
    relativePosition := getRelativePosition textPosition img.position }

/-- The result assembled for the first matching text block. -/
def matchedResult (contentInfo : ContentInfo) (targetText : List Char)
    (options : AnalyzeOptions) (textItem : TextItem) : AnalysisResult :=
  let nearbyImages := findImagesAfterText contentInfo.imagePositions textItem.position
    options.searchRadius options.lineHeight
  let base := { defaultAnalysisResult targetText with
                foundText := true
                textPosition := some textItem.position
                confidence := calculateTextConfidence textItem.text targetText }
  if 0 < nearbyImages.length then
    { base with
      hasImageAfter := true
      imageDetails := nearbyImages.map (mkImageDetail textItem.position options.lineHeight) }
  else base

/-- The scan of `contentInfo.textContent` inside
`analyzeTextImageRelationship`: `break` after the first match. -/
def analyzeLoop (contentInfo : ContentInfo) (targetText : List Char)
    (options : AnalyzeOptions) : List TextItem → AnalysisResult
  | [] => defaultAnalysisResult targetText
  | textItem :: rest =>
    if blockMatches targetText options textItem then
      matchedResult contentInfo targetText options textItem
    else analyzeLoop contentInfo targetText options rest

/-- `DocumentAnalysisService.analyzeTextImageRelationship` (part_003
lines 332-386). -/
def analyzeTextImageRelationship (contentInfo : ContentInfo) (targetText : List Char)
    (options : AnalyzeOptions) : AnalysisResult :=
  analyzeLoop contentInfo targetText options contentInfo.textContent

/-! ### Document-wide text search (part_003 lines 229-249 and 595-652) -/

/-- `DocumentAnalysisService.extractContext`: a window of
`contextLength/2` characters on each side of the first
(case-insensitive) occurrence of `searchText`, with `...` marking
truncation (source always passes `contextLength = 50`). -/
def extractContext (fullText searchText : List Char) (contextLength : Nat) : List Char :=
  match firstIdx (toLowerL searchText) (toLowerL fullText) with
  | none => fullText.take (min contextLength fullText.length)
  | some searchIndex =>
    let startIndex := searchIndex - contextLength / 2
    let endIndex := min fullText.length (searchIndex + searchText.length + contextLength / 2)
    let context := (fullText.take endIndex).drop startIndex
    let context := if 0 < startIndex then "...".data ++ context else context
    if endIndex < fullText.length then context ++ "...".data else context

/-- Options of `searchTextInDocument`, with the source defaults. -/
structure SearchOptions where
  caseSensitive : Bool := false
  fuzzyMatch : Bool := false
  tolerance : ℚ := 0.8
  maxResults : Nat := 10
deriving DecidableEq

/-- A search hit; `matchIndex` is present only on the exact-match
branch, as in the source. -/
structure MatchResult where
  page : Nat
  position : Position
  matchedText : List Char
  confidence : ℚ
  matchType : String
  matchIndex : Option Nat
  context : List Char
deriving DecidableEq

/-- The per-block body of the `searchTextInDocument` loop: the
`MatchResult` pushed for this text block, if any. -/
def matchResultFor (searchText : List Char) (options : SearchOptions)
    (textItem : TextItem) : Option MatchResult :=
  let normalizedSearchText := if options.caseSensitive then searchText else toLowerL searchText
  let documentText := if options.caseSensitive then textItem.text else toLowerL textItem.text
  if options.fuzzyMatch then
    let similarity := calculateSimilarity documentText normalizedSearchText
    if options.tolerance ≤ similarity then
      some { page := textItem.page, position := textItem.position,
             matchedText := textItem.text, confidence := similarity,
             matchType := "fuzzy", matchIndex := none,
             context := extractContext textItem.text searchText 50 }
    else none
  else
    match firstIdx normalizedSearchText documentText with
    | some matchIndex =>
      some { page := textItem.page, position := textItem.position,
             matchedText := textItem.text, confidence := 1,
             matchType := "exact", matchIndex := some matchIndex,
             context := extractContext textItem.text searchText 50 }
    | none => none

/-- The block scan of `searchTextInDocument`: push each match, stop as
soon as `results.length >= maxResults` (checked after every block). -/
def searchLoop (searchText : List Char) (options : SearchOptions) :
    List TextItem → List MatchResult → List MatchResult
  | [], results => results
  | textItem :: rest, results =>
    let results' :=
      match matchResultFor searchText options textItem with
      | some m => results ++ [m]
      | none => results
    if options.maxResults ≤ results'.length then results'
    else searchLoop searchText options rest results'

/-- All matches of the document, in block order (the loop without the
`maxResults` cutoff). -/
def allMatches (searchText : List Char) (options : SearchOptions)
    (items : List TextItem) : List MatchResult :=
  items.filterMap (matchResultFor searchText options)

/-- Stable insertion of a match into a descending-confidence list:
models the stable `Array.prototype.sort` with comparator
`(a, b) => b.confidence - a.confidence` (an element moves before `x`
only when its confidence is strictly larger). -/
def insertByConfidence (m : MatchResult) : List MatchResult → List MatchResult
  | [] => [m]
  | x :: xs =>
    if x.confidence < m.confidence then m :: x :: xs
    else x :: insertByConfidence m xs

/-- Stable sort by descending confidence. -/
def sortByConfidence (l : List MatchResult) : List MatchResult :=
  l.foldr insertByConfidence []

/-- `DocumentAnalysisService.searchTextInDocument` (part_003 lines
603-652): scan with cutoff, then sort by descending confidence. -/
def searchTextInDocument (contentInfo : ContentInfo) (searchText : List Char)
    (options : SearchOptions) : List MatchResult :=
  sortByConfidence (searchLoop searchText options contentInfo.textContent [])

/-! ### The batch contract of `extractDocumentContent` (part_003 lines
799-810) -/

/-- The `data.result` array built by `extractDocumentContent`: one entry
per comma-separated target, empty when `isFollowedByImage` holds on the
normalized text and `缺少{target}` otherwise. -/
def extractDocumentContentResult (htmlContent targetText : List Char) : List (List Char) :=
  (splitOnL targetText [',']).map fun text =>
    if isFollowedByImage (extractTextFromHtml htmlContent) text then []
    else "缺少".data ++ text

/-! ### Helper lemmas -/

lemma isPrefixOf_length {p s : List Char} (h : p.isPrefixOf s = true) :
    p.length ≤ s.length := by
  induction p generalizing s with
  | nil => simp
  | cons a as ih =>
    cases s with
    | nil => simp [List.isPrefixOf] at h
    | cons b bs =>
      simp only [List.isPrefixOf, Bool.and_eq_true] at h
      simpa using ih h.2

lemma isPrefixOf_eq_take (p s : List Char) :
    p.isPrefixOf s = (s.take p.length == p) := by
  induction p generalizing s with
  | nil => simp [List.isPrefixOf]
  | cons a as ih =>
    cases s with
    | nil => simp [List.isPrefixOf]
    | cons b bs =>
      simp only [List.isPrefixOf, List.length_cons, List.take_succ_cons, List.cons_beq_cons, ih]
      by_cases hab : a = b
      · subst hab; rfl
      · have h1 : (a == b) = false := beq_eq_false_iff_ne.mpr hab
        have h2 : (b == a) = false := beq_eq_false_iff_ne.mpr (Ne.symm hab)
        rw [h1, h2]

lemma firstIdx_nil {pat : List Char} (h : pat ≠ []) : firstIdx pat [] = none := by
  cases pat with
  | nil => exact (h rfl).elim
  | cons a as => simp [firstIdx, List.isPrefixOf]

lemma firstIdx_bound {pat s : List Char} {i : Nat} (h : firstIdx pat s = some i) :
    i + pat.length ≤ s.length := by
  induction s generalizing i with
  | nil =>
    simp only [firstIdx] at h
    split at h
    · rename_i hp
      cases h
      have := isPrefixOf_length hp
      omega
    · cases h
  | cons c cs ih =>
    simp only [firstIdx] at h
    split at h
    · rename_i hp
      cases h
      have := isPrefixOf_length hp
      omega
    · cases hcs : firstIdx pat cs with
      | none => rw [hcs] at h; cases h
      | some j =>
        rw [hcs] at h
        simp only [Option.map_some'] at h
        cases h
        have := ih hcs
        simp only [List.length_cons]
        omega

lemma splitOnLF_length_pos (sep : List Char) (fuel : Nat) (s : List Char) :
    0 < (splitOnLF sep fuel s).length := by
  cases fuel with
  | zero => simp [splitOnLF]
  | succ n =>
    simp only [splitOnLF]
    cases firstIdx sep s <;> simp

lemma splitOnLF_fuel (sep : List Char) (hsep : sep ≠ []) :
    ∀ f g s : _, s.length ≤ f → s.length ≤ g →
      splitOnLF sep f s = splitOnLF sep g s := by
  intro f
  induction f with
  | zero =>
    intro g s hf hg
    have hs : s = [] := List.length_eq_zero.mp (Nat.le_zero.mp hf)
    subst hs
    cases g with
    | zero => rfl
    | succ m => simp [splitOnLF, firstIdx_nil hsep]
  | succ n ih =>
    intro g s hf hg
    cases g with
    | zero =>
      have hs : s = [] := List.length_eq_zero.mp (Nat.le_zero.mp hg)
      subst hs
      simp [splitOnLF, firstIdx_nil hsep]
    | succ m =>
      cases hfi : firstIdx sep s with
      | none => simp only [splitOnLF, hfi]
      | some i =>
        have hb := firstIdx_bound hfi
        have hlen : (s.drop (i + sep.length)).length ≤ n := by
          simp only [List.length_drop]
          have : 0 < sep.length := List.length_pos.mpr hsep
          omega
        have hlen' : (s.drop (i + sep.length)).length ≤ m := by
          simp only [List.length_drop]
          have : 0 < sep.length := List.length_pos.mpr hsep
          omega
        simp only [splitOnLF, hfi]
        rw [ih _ _ hlen hlen']

/-- One-step unfolding of `splitOnL` for a non-empty separator. -/
lemma splitOnL_unfold {sep : List Char} (s : List Char) (hsep : sep ≠ []) :
    splitOnL s sep =
      match firstIdx sep s with
      | none => [s]
      | some i => s.take i :: splitOnL (s.drop (i + sep.length)) sep := by
  simp only [splitOnL, if_neg hsep]
  cases hs : s.length with
  | zero =>
    have : s = [] := List.length_eq_zero.mp hs
    subst this
    simp [splitOnLF, firstIdx_nil hsep]
  | succ n =>
    cases hfi : firstIdx sep s with
    | none => simp [splitOnLF, hfi]
    | some i =>
      have hb := firstIdx_bound hfi
      have hp : 0 < sep.length := List.length_pos.mpr hsep
      simp only [splitOnLF, hfi, splitOnL, if_neg hsep]
      refine congrArg (s.take i :: ·) ?_
      apply splitOnLF_fuel sep hsep
      · simp only [List.length_drop]; omega
      · exact le_refl _

lemma splitOnL_length_pos (s sep : List Char) (hsep : sep ≠ []) :
    0 < (splitOnL s sep).length := by
  simp only [splitOnL, if_neg hsep]
  exact splitOnLF_length_pos sep s.length s

/-! ### C1: the split-based adjacency matcher -/

/-- Claim C1: `isFollowedByImage(text, target)` is `true` exactly when the
target is non-empty, occurs in the text (splitting yields at least two
parts), and some segment immediately following an occurrence (a member
of the tail of the split) starts with the literal `[image]`. -/
theorem isFollowedByImage_spec (s t : List Char) :
    isFollowedByImage s t = true ↔
      t ≠ [] ∧ 2 ≤ (splitOnL s t).length ∧
        ∃ seg ∈ (splitOnL s t).tail, imageTok.isPrefixOf seg = true := by
  simp only [isFollowedByImage]
  by_cases ht : t = []
  · simp [ht]
  · by_cases hs : s = []
    · subst hs
      have h1 : (splitOnL [] t).length = 1 := by
        simp [splitOnL, if_neg ht, splitOnLF]
      simp [ht, h1]
    · rw [if_neg (by simp [hs, ht])]
      by_cases hlen : (splitOnL s t).length ≤ 1
      · rw [if_pos hlen]
        constructor
        · intro h; cases h
        · rintro ⟨-, h2, -⟩; omega
      · rw [if_neg hlen, List.any_eq_true]
        constructor
        · intro h
          exact ⟨ht, by omega, h⟩
        · rintro ⟨-, -, h⟩
          exact h

/-! ### C10: relating the two `isFollowedByImage` implementations -/

/-- Claim C10 (counterexample): the two implementations disagree, in
both directions.  On `"aXbX[image]"`/`"X"` the second occurrence of the
target is followed by the placeholder, so the split-based version
answers `true` while the indexOf-based version (which inspects only the
first occurrence) answers `false`.  On `"ima[image]x"`/`"ima"` the first
occurrence is followed by `[image]`, but the placeholder itself contains
`"ima"`, so splitting cuts inside it and the split-based version answers
`false` while the indexOf-based version answers `true`. -/
theorem isFollowedByImage_impls_disagree :
    isFollowedByImage "aXbX[image]".data "X".data = true ∧
    isFollowedByImageFirst "aXbX[image]".data "X".data = false ∧
    isFollowedByImageFirst "ima[image]x".data "ima".data = true ∧
    isFollowedByImage "ima[image]x".data "ima".data = false := by
  decide

/-- Claim C10 (amended): the two implementations agree on every pair of
strings in which the target occurs at most once (splitting yields at
most two parts); with several occurrences they can disagree in both
directions. -/
theorem isFollowedByImage_impls_agree (s t : List Char)
    (h : (splitOnL s t).length ≤ 2) :
    isFollowedByImageFirst s t = isFollowedByImage s t := by
  by_cases ht : t = []
  · simp [isFollowedByImageFirst, isFollowedByImage, ht]
  · by_cases hs : s = []
    · subst hs
      simp [isFollowedByImageFirst, isFollowedByImage, firstIdx_nil ht]
    · have hu := @splitOnL_unfold t s ht
      cases hfi : firstIdx t s with
      | none =>
        rw [hfi] at hu
        have h1 : (splitOnL s t).length = 1 := by rw [hu]; rfl
        simp [isFollowedByImageFirst, isFollowedByImage, ht, hs, hfi, h1]
      | some i =>
        rw [hfi] at hu
        have hlen2 : (splitOnL (s.drop (i + t.length)) t).length ≤ 1 := by
          rw [hu] at h
          simpa using h
        have hu2 := @splitOnL_unfold t (s.drop (i + t.length)) ht
        cases hfi2 : firstIdx t (s.drop (i + t.length)) with
        | some j =>
          exfalso
          rw [hfi2] at hu2
          have hpos := splitOnL_length_pos ((s.drop (i + t.length)).drop (j + t.length)) t ht
          rw [hu2] at hlen2
          simp only [List.length_cons] at hlen2
          omega
        | none =>
          rw [hfi2] at hu2
          have hu' : splitOnL s t =
              s.take i :: splitOnL (s.drop (i + t.length)) t := by rw [hu]
          have hu2' : splitOnL (s.drop (i + t.length)) t =
              [s.drop (i + t.length)] := by rw [hu2]
          have hL : isFollowedByImageFirst s t =
              ((s.drop (i + t.length)).take 7 == imageTok) := by
            simp [isFollowedByImageFirst, ht, hfi]
          have htok : imageTok.length = 7 := rfl
          have hR : isFollowedByImage s t =
              imageTok.isPrefixOf (s.drop (i + t.length)) := by
            simp only [isFollowedByImage]
            rw [if_neg (by simp [hs, ht]), hu', hu2']
            rw [if_neg (by simp)]
            simp
          rw [hL, hR, isPrefixOf_eq_take, htok]

/-- Witness for the amended C10 theorem at a concrete input with a
single occurrence of the target. -/
theorem isFollowedByImage_impls_agree_witness :
    (splitOnL "A[image]".data "A".data).length ≤ 2 ∧
    isFollowedByImageFirst "A[image]".data "A".data =
      isFollowedByImage "A[image]".data "A".data :=
  ⟨by decide, isFollowedByImage_impls_agree "A[image]".data "A".data (by decide)⟩

/-! ### C9: the batch contract of `extractDocumentContent` -/

/-- Claim C9: the batch result has exactly one entry per comma-separated
target, in order; the entry is empty iff `isFollowedByImage` holds for
that target on the normalized text, and otherwise is the marker
`缺少{target}`, which contains the target. -/
theorem extractDocumentContentResult_spec (html tt : List Char) (i : Nat)
    (target : List Char) (h : (splitOnL tt [','])[i]? = some target) :
    (extractDocumentContentResult html tt).length = (splitOnL tt [',']).length ∧
    ((extractDocumentContentResult html tt)[i]? = some [] ↔
      isFollowedByImage (extractTextFromHtml html) target = true) ∧
    (isFollowedByImage (extractTextFromHtml html) target = false →
      (extractDocumentContentResult html tt)[i]? = some ("缺少".data ++ target)) := by
  have hmarker : ("缺少".data : List Char) ++ target ≠ [] := by
    have : ("缺少".data : List Char) = ['缺', '少'] := rfl
    simp [this]
  refine ⟨by simp [extractDocumentContentResult], ?_, ?_⟩
  · rw [extractDocumentContentResult, List.getElem?_map, h]
    cases hf : isFollowedByImage (extractTextFromHtml html) target with
    | false => simp [hf, hmarker]
    | true => simp [hf]
  · intro hf
    rw [extractDocumentContentResult, List.getElem?_map, h]
    simp [hf]

/-- Witness for C9 on a concrete document whose first target is followed
by an image and whose second is not. -/
theorem extractDocumentContentResult_spec_witness :
    (splitOnL "A,B".data [','])[0]? = some "A".data ∧
    ((extractDocumentContentResult "<p>A</p><img x>".data "A,B".data).length =
        (splitOnL "A,B".data [',']).length ∧
      ((extractDocumentContentResult "<p>A</p><img x>".data "A,B".data)[0]? = some [] ↔
        isFollowedByImage (extractTextFromHtml "<p>A</p><img x>".data) "A".data = true) ∧
      (isFollowedByImage (extractTextFromHtml "<p>A</p><img x>".data) "A".data = false →
        (extractDocumentContentResult "<p>A</p><img x>".data "A,B".data)[0]? =
          some ("缺少".data ++ "A".data))) :=
  ⟨by decide, extractDocumentContentResult_spec "<p>A</p><img x>".data "A,B".data 0 "A".data
    (by decide)⟩

/-! ### C5: the geometric filter `findImagesAfterText` -/

lemma distanceLe_iff_sqrt (p q : Position) (r : ℚ) :
    distanceLe p q r = true ↔
      Real.sqrt (((p.x - q.x : ℚ) : ℝ) ^ 2 + ((p.y - q.y : ℚ) : ℝ) ^ 2) ≤ (r : ℝ) := by
  rw [Real.sqrt_le_iff]
  simp only [distanceLe, decide_eq_true_eq, calculateDistanceSq]
  constructor
  · rintro ⟨h1, h2⟩
    refine ⟨by exact_mod_cast h1, ?_⟩
    have h2R : ((p.x - q.x : ℚ) : ℝ) * ((p.x - q.x : ℚ) : ℝ) +
        ((p.y - q.y : ℚ) : ℝ) * ((p.y - q.y : ℚ) : ℝ) ≤ ((r : ℚ) : ℝ) * ((r : ℚ) : ℝ) := by
      exact_mod_cast h2
    nlinarith [h2R]
  · rintro ⟨h1, h2⟩
    refine ⟨by exact_mod_cast h1, ?_⟩
    have h2R : ((p.x - q.x : ℚ) : ℝ) * ((p.x - q.x : ℚ) : ℝ) +
        ((p.y - q.y : ℚ) : ℝ) * ((p.y - q.y : ℚ) : ℝ) ≤ ((r : ℚ) : ℝ) * ((r : ℚ) : ℝ) := by
      nlinarith [h2]
    exact_mod_cast h2R

/-- Claim C5: an image is kept by `findImagesAfterText` iff it belongs
to the list, its Euclidean distance to the text position is at most
`searchRadius`, and its top lies in the closed band
`[textBottom + lineHeight/2, textBottom + 3·lineHeight]`; both band ends
are inclusive (with textBottom = 100 and lineHeight = 20, an image top
of 109 fails, 110 and 160 pass, 161 fails). -/
theorem findImagesAfterText_spec :
    (∀ (imgs : List ImageRecord) (tp : Position) (r lh : ℚ) (img : ImageRecord),
      img ∈ findImagesAfterText imgs tp r lh ↔
        img ∈ imgs ∧
        Real.sqrt (((tp.x - img.position.x : ℚ) : ℝ) ^ 2 +
            ((tp.y - img.position.y : ℚ) : ℝ) ^ 2) ≤ (r : ℝ) ∧
        tp.y + tp.height + lh / 2 ≤ img.position.y ∧
        img.position.y ≤ tp.y + tp.height + 3 * lh) ∧
    isImageBelowText ⟨0, 80, 0, 20⟩ ⟨0, 109, 0, 0⟩ 20 = false ∧
    isImageBelowText ⟨0, 80, 0, 20⟩ ⟨0, 110, 0, 0⟩ 20 = true ∧
    isImageBelowText ⟨0, 80, 0, 20⟩ ⟨0, 160, 0, 0⟩ 20 = true ∧
    isImageBelowText ⟨0, 80, 0, 20⟩ ⟨0, 161, 0, 0⟩ 20 = false := by
  refine ⟨?_, by with_unfolding_all decide, by with_unfolding_all decide,
    by with_unfolding_all decide, by with_unfolding_all decide⟩
  intro imgs tp r lh img
  rw [findImagesAfterText, List.mem_filter, Bool.and_eq_true, distanceLe_iff_sqrt]
  constructor
  · rintro ⟨hmem, hd, hb⟩
    simp only [isImageBelowText, decide_eq_true_eq] at hb
    refine ⟨hmem, hd, ?_, ?_⟩ <;> [skip; skip] <;> [linarith [hb.1]; linarith [hb.2]]
  · rintro ⟨hmem, hd, hb1, hb2⟩
    refine ⟨hmem, hd, ?_⟩
    simp only [isImageBelowText, decide_eq_true_eq]
    constructor <;> [linarith; linarith]

/-! ### C6 and C7: the geometric analysis loop -/

lemma calculateSimilarity_self (x : List Char) : calculateSimilarity x x = 1 := by
  simp [calculateSimilarity]

lemma analyzeLoop_eq_find (contentInfo : ContentInfo) (targetText : List Char)
    (options : AnalyzeOptions) :
    ∀ items : List TextItem,
      analyzeLoop contentInfo targetText options items =
        match items.find? (blockMatches targetText options) with
        | none => defaultAnalysisResult targetText
        | some textItem => matchedResult contentInfo targetText options textItem := by
  intro items
  induction items with
  | nil => simp [analyzeLoop, List.find?]
  | cons it rest ih =>
    cases hb : blockMatches targetText options it with
    | true =>
      have hfind : List.find? (blockMatches targetText options) (it :: rest) = some it :=
        List.find?_cons_of_pos _ hb
      simp [analyzeLoop, hb, hfind]
    | false =>
      have hfind : List.find? (blockMatches targetText options) (it :: rest) =
          List.find? (blockMatches targetText options) rest :=
        List.find?_cons_of_neg _ (by simp [hb])
      simp [analyzeLoop, hb, hfind, ih]

/-- Claim C6: `analyzeTextImageRelationship` is fully determined by the
first matching text block — the result is a function of
`find?` over the blocks, so blocks after the first match never influence
it — and when no block matches the returned record has
`hasImageAfter = false`, `textPosition = none` and `confidence = 0`. -/
theorem analyzeTextImageRelationship_first_match_wins :
    (∀ (contentInfo : ContentInfo) (targetText : List Char) (options : AnalyzeOptions),
      analyzeTextImageRelationship contentInfo targetText options =
        match contentInfo.textContent.find? (blockMatches targetText options) with
        | none => defaultAnalysisResult targetText
        | some textItem => matchedResult contentInfo targetText options textItem) ∧
    (∀ targetText : List Char,
      (defaultAnalysisResult targetText).hasImageAfter = false ∧
      (defaultAnalysisResult targetText).textPosition = none ∧
      (defaultAnalysisResult targetText).confidence = 0) := by
  constructor
  · intro contentInfo targetText options
    exact analyzeLoop_eq_find contentInfo targetText options contentInfo.textContent
  · intro targetText
    exact ⟨rfl, rfl, rfl⟩

/-- Claim C7 (counterexample): the block `"hello world"` matches the
target `"hello"` exactly (trimmed-lowercased containment holds), yet the
reported confidence is 1/2, not 1.0. -/
theorem analyzeTextImageRelationship_confidence_cex :
    (analyzeTextImageRelationship ⟨[⟨1, "hello world".data, ⟨0, 0, 0, 0⟩⟩], []⟩
        "hello".data {}).foundText = true ∧
    containsSub (trimL (toLowerL "hello world".data)) (trimL (toLowerL "hello".data)) = true ∧
    (analyzeTextImageRelationship ⟨[⟨1, "hello world".data, ⟨0, 0, 0, 0⟩⟩], []⟩
        "hello".data {}).confidence = 1 / 2 ∧
    ¬(analyzeTextImageRelationship ⟨[⟨1, "hello world".data, ⟨0, 0, 0, 0⟩⟩], []⟩
        "hello".data {}).confidence = 1 := by
  with_unfolding_all decide

/-- Claim C7 (amended): the confidence reported for the first matching
block equals `calculateSimilarity` of the lowercased (but NOT trimmed)
block text and target — word overlap divided by the larger word count,
with the equal-strings shortcut giving 1 — and it equals 1.0 when the
lowercased block text equals the lowercased target; an exact substring
match alone does not guarantee 1.0. -/
theorem analyzeTextImageRelationship_confidence (texts : List TextItem)
    (imgs : List ImageRecord) (targetText : List Char) (options : AnalyzeOptions)
    (textItem : TextItem)
    (h : texts.find? (blockMatches targetText options) = some textItem) :
    (analyzeTextImageRelationship ⟨texts, imgs⟩ targetText options).confidence =
      calculateSimilarity (toLowerL textItem.text) (toLowerL targetText) ∧
    (toLowerL textItem.text = toLowerL targetText →
      (analyzeTextImageRelationship ⟨texts, imgs⟩ targetText options).confidence = 1) := by
  have hres : analyzeTextImageRelationship ⟨texts, imgs⟩ targetText options =
      matchedResult ⟨texts, imgs⟩ targetText options textItem := by
    rw [analyzeTextImageRelationship, analyzeLoop_eq_find]
    have htc : (⟨texts, imgs⟩ : ContentInfo).textContent = texts := rfl
    rw [htc, h]
  have hconf : (analyzeTextImageRelationship ⟨texts, imgs⟩ targetText options).confidence =
      calculateSimilarity (toLowerL textItem.text) (toLowerL targetText) := by
    rw [hres]
    unfold matchedResult
    dsimp only
    split <;> simp [defaultAnalysisResult, calculateTextConfidence]
  refine ⟨hconf, fun he => ?_⟩
  rw [hconf, he, calculateSimilarity_self]

/-- Witness for the amended C7 theorem: a block equal to the target has
confidence 1. -/
theorem analyzeTextImageRelationship_confidence_witness :
    ([⟨1, "abc".data, ⟨0, 0, 0, 0⟩⟩] : List TextItem).find?
        (blockMatches "abc".data {}) = some ⟨1, "abc".data, ⟨0, 0, 0, 0⟩⟩ ∧
    ((analyzeTextImageRelationship ⟨[⟨1, "abc".data, ⟨0, 0, 0, 0⟩⟩], []⟩ "abc".data {}).confidence =
        calculateSimilarity (toLowerL "abc".data) (toLowerL "abc".data) ∧
      (toLowerL "abc".data = toLowerL "abc".data →
        (analyzeTextImageRelationship ⟨[⟨1, "abc".data, ⟨0, 0, 0, 0⟩⟩], []⟩ "abc".data
            {}).confidence = 1)) :=
  ⟨by with_unfolding_all decide,
    analyzeTextImageRelationship_confidence [⟨1, "abc".data, ⟨0, 0, 0, 0⟩⟩] [] "abc".data {}
      ⟨1, "abc".data, ⟨0, 0, 0, 0⟩⟩ (by with_unfolding_all decide)⟩

/-! ### C8: the document-wide search -/

lemma mem_insertByConfidence {m x : MatchResult} {l : List MatchResult}
    (h : x ∈ insertByConfidence m l) : x = m ∨ x ∈ l := by
  induction l with
  | nil => simpa [insertByConfidence] using h
  | cons y ys ih =>
    simp only [insertByConfidence] at h
    split at h
    · rcases List.mem_cons.mp h with h1 | h1
      · exact Or.inl h1
      · exact Or.inr h1
    · rcases List.mem_cons.mp h with h1 | h1
      · exact Or.inr (List.mem_cons.mpr (Or.inl h1))
      · rcases ih h1 with h2 | h2
        · exact Or.inl h2
        · exact Or.inr (List.mem_cons.mpr (Or.inr h2))

lemma sorted_insertByConfidence {m : MatchResult} {l : List MatchResult}
    (h : List.Sorted (fun a b => b.confidence ≤ a.confidence) l) :
    List.Sorted (fun a b => b.confidence ≤ a.confidence) (insertByConfidence m l) := by
  induction l with
  | nil => simp [insertByConfidence]
  | cons y ys ih =>
    rw [List.sorted_cons] at h
    obtain ⟨hy, hys⟩ := h
    simp only [insertByConfidence]
    split
    · rename_i hlt
      rw [List.sorted_cons]
      refine ⟨?_, List.sorted_cons.mpr ⟨hy, hys⟩⟩
      intro b hb
      rcases List.mem_cons.mp hb with rfl | hb
      · exact le_of_lt hlt
      · exact le_trans (hy b hb) (le_of_lt hlt)
    · rename_i hnlt
      rw [List.sorted_cons]
      refine ⟨?_, ih hys⟩
      intro b hb
      rcases mem_insertByConfidence hb with rfl | hb
      · exact le_of_not_lt hnlt
      · exact hy b hb

lemma sortByConfidence_sorted (l : List MatchResult) :
    List.Sorted (fun a b => b.confidence ≤ a.confidence) (sortByConfidence l) := by
  induction l with
  | nil => simp [sortByConfidence]
  | cons x xs ih => exact sorted_insertByConfidence ih

lemma searchLoop_eq (searchText : List Char) (options : SearchOptions) :
    ∀ (items : List TextItem) (acc : List MatchResult),
      acc.length < options.maxResults →
      searchLoop searchText options items acc =
        acc ++ (allMatches searchText options items).take (options.maxResults - acc.length) := by
  intro items
  induction items with
  | nil => intro acc h; simp [searchLoop, allMatches]
  | cons it rest ih =>
    intro acc h
    simp only [searchLoop]
    cases hm : matchResultFor searchText options it with
    | none =>
      simp only [hm]
      rw [if_neg (by omega), ih acc h]
      simp [allMatches, List.filterMap_cons, hm]
    | some m =>
      simp only [hm]
      by_cases hstop : options.maxResults ≤ (acc ++ [m]).length
      · rw [if_pos hstop]
        simp only [List.length_append, List.length_cons, List.length_nil] at hstop
        have h1 : options.maxResults - acc.length = 1 := by omega
        simp [allMatches, List.filterMap_cons, hm, h1]
      · rw [if_neg hstop]
        rw [ih (acc ++ [m]) (lt_of_not_ge hstop)]
        simp only [List.length_append, List.length_cons, List.length_nil] at hstop
        have h1 : options.maxResults - acc.length =
            (options.maxResults - (acc.length + 1)) + 1 := by omega
        simp only [allMatches, List.filterMap_cons, hm, List.length_append,
          List.length_cons, List.length_nil, h1, List.take_succ_cons, List.append_assoc,
          List.singleton_append]

/-- Claim C8 (counterexample): with `fuzzyMatch` and `maxResults = 1`,
the loop keeps the FIRST match (confidence 4/5) and stops, even though a
later block matches with the strictly higher confidence 1 (returned
when `maxResults = 2`); the result is therefore not the highest-
confidence truncation the claim describes. -/
theorem searchTextInDocument_cex :
    ((searchTextInDocument
          ⟨[⟨1, "a b c d x".data, ⟨0, 0, 0, 0⟩⟩, ⟨2, "a b c d e".data, ⟨0, 0, 0, 0⟩⟩], []⟩
          "a b c d e".data { fuzzyMatch := true, maxResults := 1 }).map
        (fun m => m.confidence) = [4 / 5]) ∧
    ((searchTextInDocument
          ⟨[⟨1, "a b c d x".data, ⟨0, 0, 0, 0⟩⟩, ⟨2, "a b c d e".data, ⟨0, 0, 0, 0⟩⟩], []⟩
          "a b c d e".data { fuzzyMatch := true, maxResults := 2 }).map
        (fun m => m.confidence) = [1, 4 / 5]) := by
  with_unfolding_all decide

/-- Claim C8 (amended): for `maxResults ≥ 1`, `searchTextInDocument`
returns the FIRST `maxResults` matching blocks in document order, sorted
among themselves by descending confidence; matching blocks encountered
after the cutoff are dropped even when their confidence is higher. -/
theorem searchTextInDocument_spec (contentInfo : ContentInfo) (searchText : List Char)
    (options : SearchOptions) (h : 1 ≤ options.maxResults) :
    searchTextInDocument contentInfo searchText options =
      sortByConfidence
        ((allMatches searchText options contentInfo.textContent).take options.maxResults) ∧
    List.Sorted (fun a b : MatchResult => b.confidence ≤ a.confidence)
      (searchTextInDocument contentInfo searchText options) := by
  constructor
  · rw [searchTextInDocument,
      searchLoop_eq searchText options contentInfo.textContent [] (by simpa using h)]
    simp
  · exact sortByConfidence_sorted _

/-- Witness for the amended C8 theorem on a one-block document with the
default options. -/
theorem searchTextInDocument_spec_witness :
    1 ≤ ({} : SearchOptions).maxResults ∧
    (searchTextInDocument ⟨[⟨1, "ab".data, ⟨0, 0, 0, 0⟩⟩], []⟩ "ab".data {} =
        sortByConfidence
          ((allMatches "ab".data {} [⟨1, "ab".data, ⟨0, 0, 0, 0⟩⟩]).take
            ({} : SearchOptions).maxResults) ∧
      List.Sorted (fun a b : MatchResult => b.confidence ≤ a.confidence)
        (searchTextInDocument ⟨[⟨1, "ab".data, ⟨0, 0, 0, 0⟩⟩], []⟩ "ab".data {})) :=
  ⟨by decide,
    searchTextInDocument_spec ⟨[⟨1, "ab".data, ⟨0, 0, 0, 0⟩⟩], []⟩ "ab".data {} (by decide)⟩

/-! ### C2, C3, C4: lemmas about the HTML-normalizer passes -/

lemma mem_trimL {c : Char} {s : List Char} (h : c ∈ trimL s) : c ∈ s := by
  unfold trimL at h
  rw [List.mem_reverse] at h
  have h1 : c ∈ (s.dropWhile isWs).reverse := (List.dropWhile_sublist _).subset h
  rw [List.mem_reverse] at h1
  exact (List.dropWhile_sublist _).subset h1

lemma replaceOpenTagF_id (nm : List Char) (fuel : Nat) {s : List Char} (h : '<' ∉ s) :
    replaceOpenTagF nm fuel s = s := by
  induction fuel generalizing s with
  | zero => rfl
  | succ n ih =>
    cases s with
    | nil => rfl
    | cons c cs =>
      have hc : c ≠ '<' := fun e => h (by simp [e])
      rw [replaceOpenTagF, if_neg (by simp [hc])]
      exact congrArg (c :: ·) (ih (fun m => h (List.mem_cons_of_mem _ m)))

lemma replaceOpenTag_id (nm : List Char) {s : List Char} (h : '<' ∉ s) :
    replaceOpenTag nm s = s :=
  replaceOpenTagF_id nm s.length h

lemma replacePairTagF_id (nm : List Char) (fuel : Nat) {s : List Char} (h : '<' ∉ s) :
    replacePairTagF nm fuel s = s := by
  induction fuel generalizing s with
  | zero => rfl
  | succ n ih =>
    cases s with
    | nil => rfl
    | cons c cs =>
      have hc : c ≠ '<' := fun e => h (by simp [e])
      rw [replacePairTagF, if_neg (by simp [hc])]
      exact congrArg (c :: ·) (ih (fun m => h (List.mem_cons_of_mem _ m)))

lemma replacePairTag_id (nm : List Char) {s : List Char} (h : '<' ∉ s) :
    replacePairTag nm s = s :=
  replacePairTagF_id nm s.length h

lemma stripTagsF_id (fuel : Nat) {s : List Char} (h : '<' ∉ s) :
    stripTagsF fuel s = s := by
  induction fuel generalizing s with
  | zero => rfl
  | succ n ih =>
    cases s with
    | nil => rfl
    | cons c cs =>
      have hc : c ≠ '<' := fun e => h (by simp [e])
      rw [stripTagsF, if_neg (by simp [hc])]
      exact congrArg (c :: ·) (ih (fun m => h (List.mem_cons_of_mem _ m)))

lemma stripTags_id {s : List Char} (h : '<' ∉ s) : stripTags s = s :=
  stripTagsF_id s.length h

lemma replaceAllLF_id {h0 : Char} {pat : List Char} (r : List Char) (fuel : Nat)
    {s : List Char} (hh : pat.head? = some h0) (h : h0 ∉ s) :
    replaceAllLF pat r fuel s = s := by
  induction fuel generalizing s with
  | zero => rfl
  | succ n ih =>
    cases s with
    | nil => rfl
    | cons c cs =>
      have hpre : pat.isPrefixOf (c :: cs) = false := by
        cases pat with
        | nil => simp at hh
        | cons p ps =>
          simp only [List.head?_cons, Option.some.injEq] at hh
          have hc : (p == c) = false :=
            beq_eq_false_iff_ne.mpr (fun e => h (by rw [← hh, e]; exact List.mem_cons_self _ _))
          simp [List.isPrefixOf, hc]
      rw [replaceAllLF, if_neg (by simp [hpre])]
      exact congrArg (c :: ·) (ih (fun m => h (List.mem_cons_of_mem _ m)))

lemma replaceAllL_id {h0 : Char} {pat : List Char} (r : List Char) {s : List Char}
    (hh : pat.head? = some h0) (h : h0 ∉ s) : replaceAllL pat r s = s :=
  replaceAllLF_id r s.length hh h

lemma foldl_replaceAll_id {s : List Char} (h : '&' ∉ s) :
    ∀ tbl : List (List Char × List Char), (∀ e ∈ tbl, e.1.head? = some '&') →
      tbl.foldl (fun acc e => replaceAllL e.1 e.2 acc) s = s := by
  intro tbl
  induction tbl with
  | nil => intro _; rfl
  | cons e es ih =>
    intro hall
    simp only [List.foldl_cons]
    rw [replaceAllL_id e.2 (hall e (by simp)) h]
    exact ih (fun e' he' => hall e' (by simp [he']))

lemma decodeEntities_id {s : List Char} (h : '&' ∉ s) : decodeEntities s = s :=
  foldl_replaceAll_id h entityTable (by decide)

lemma mem_collapseWsF {c : Char} :
    ∀ (fuel : Nat) (s : List Char), c ∈ collapseWsF fuel s → c ∈ s ∨ c = ' ' := by
  intro fuel
  induction fuel with
  | zero => intro s h; exact Or.inl h
  | succ n ih =>
    intro s h
    cases s with
    | nil => simp [collapseWsF] at h
    | cons d ds =>
      rw [collapseWsF] at h
      split at h
      · rcases List.mem_cons.mp h with rfl | h1
        · exact Or.inr rfl
        · rcases ih _ h1 with h2 | h2
          · exact Or.inl (List.mem_cons_of_mem _ ((List.dropWhile_sublist _).subset h2))
          · exact Or.inr h2
      · rcases List.mem_cons.mp h with rfl | h1
        · exact Or.inl (List.mem_cons_self _ _)
        · rcases ih _ h1 with h2 | h2
          · exact Or.inl (List.mem_cons_of_mem _ h2)
          · exact Or.inr h2

lemma mem_collapseWs {c : Char} {s : List Char} (h : c ∈ collapseWs s) : c ∈ s ∨ c = ' ' :=
  mem_collapseWsF s.length s h

lemma matchImagePair_rest_sublist {s rest : List Char} (h : matchImagePair s = some rest) :
    List.Sublist rest s := by
  simp only [matchImagePair] at h
  split at h
  · split at h
    · cases h
      exact ((List.drop_sublist _ _).trans (List.dropWhile_sublist _)).trans
        (List.drop_sublist _ _)
    · cases h
  · cases h

lemma mem_collapseImagePairsF {c : Char} :
    ∀ (fuel : Nat) (s : List Char), c ∈ collapseImagePairsF fuel s → c ∈ s ∨ c ∈ imageTok := by
  intro fuel
  induction fuel with
  | zero => intro s h; exact Or.inl h
  | succ n ih =>
    intro s h
    cases s with
    | nil => simp [collapseImagePairsF] at h
    | cons d ds =>
      rw [collapseImagePairsF] at h
      cases hm : matchImagePair (d :: ds) with
      | some rest =>
        rw [hm] at h
        rcases List.mem_append.mp h with h1 | h1
        · exact Or.inr h1
        · rcases ih _ h1 with h2 | h2
          · exact Or.inl ((matchImagePair_rest_sublist hm).subset h2)
          · exact Or.inr h2
      | none =>
        rw [hm] at h
        rcases List.mem_cons.mp h with rfl | h1
        · exact Or.inl (List.mem_cons_self _ _)
        · rcases ih _ h1 with h2 | h2
          · exact Or.inl (List.mem_cons_of_mem _ h2)
          · exact Or.inr h2

lemma mem_collapseImagePairs {c : Char} {s : List Char} (h : c ∈ collapseImagePairs s) :
    c ∈ s ∨ c ∈ imageTok :=
  mem_collapseImagePairsF s.length s h

/-- On inputs whose trimmed form contains no `<` and no `&`, the
tag-replacement, tag-stripping and entity-decoding passes are all the
identity, so the normalizer reduces to its whitespace and placeholder
passes. -/
lemma extractTextFromHtml_eq_of_clean {s : List Char} (hs : s ≠ []) (hst : trimL s ≠ [])
    (h1 : '<' ∉ trimL s) (h3 : '&' ∉ trimL s) :
    extractTextFromHtml s = collapseImagePairs (trimL (collapseWs (trimL s))) := by
  simp only [extractTextFromHtml]
  rw [if_neg hs, if_neg hst]
  rw [replaceOpenTag_id _ h1, replaceOpenTag_id _ h1, replacePairTag_id _ h1,
    replacePairTag_id _ h1, replacePairTag_id _ h1, replacePairTag_id _ h1,
    stripTags_id h1, decodeEntities_id h3]

/-- Claim C2 (counterexample): the invariant fails — a bare `>` passes
through unchanged, and the entity `&lt;` is decoded to a literal `<`. -/
theorem extractTextFromHtml_angle_cex :
    '>' ∈ extractTextFromHtml ">".data ∧ '<' ∈ extractTextFromHtml "&lt;".data := by
  decide

/-- Claim C2 (amended): for every input containing no `<`, no `>` and no
`&`, the output of the normalizer contains no `<` and no `>`.  (In
general the invariant fails: angle brackets that are not part of a
complete tag survive tag stripping, and `&lt;`/`&gt;` decode to literal
brackets.) -/
theorem extractTextFromHtml_no_angle (s : List Char)
    (h1 : '<' ∉ s) (h2 : '>' ∉ s) (h3 : '&' ∉ s) :
    '<' ∉ extractTextFromHtml s ∧ '>' ∉ extractTextFromHtml s := by
  by_cases hs : s = []
  · simp [hs, extractTextFromHtml]
  · by_cases hst : trimL s = []
    · simp only [extractTextFromHtml]
      rw [if_neg hs, if_pos hst]
      simp
    · have ht1 : '<' ∉ trimL s := fun m => h1 (mem_trimL m)
      have ht3 : '&' ∉ trimL s := fun m => h3 (mem_trimL m)
      rw [extractTextFromHtml_eq_of_clean hs hst ht1 ht3]
      have key : ∀ c : Char, c ∉ s → c ≠ ' ' → c ∉ imageTok →
          c ∉ collapseImagePairs (trimL (collapseWs (trimL s))) := by
        intro c hcs hcsp hctok hmem
        rcases mem_collapseImagePairs hmem with hm | hm
        · rcases mem_collapseWs (mem_trimL hm) with hm2 | hm2
          · exact hcs (mem_trimL hm2)
          · exact hcsp hm2
        · exact hctok hm
      exact ⟨key '<' h1 (by decide) (by decide), key '>' h2 (by decide) (by decide)⟩

/-- Witness for the amended C2 theorem. -/
theorem extractTextFromHtml_no_angle_witness :
    ('<' ∉ "a b".data ∧ '>' ∉ "a b".data ∧ '&' ∉ "a b".data) ∧
    ('<' ∉ extractTextFromHtml "a b".data ∧ '>' ∉ extractTextFromHtml "a b".data) :=
  ⟨by decide, extractTextFromHtml_no_angle "a b".data (by decide) (by decide) (by decide)⟩
/-! ### C3: the placeholder-collapse pass -/

lemma matchImagePair_nil : matchImagePair [] = none := by decide

lemma matchImagePair_length {s rest : List Char} (h : matchImagePair s = some rest) :
    rest.length < s.length := by
  simp only [matchImagePair] at h
  split at h
  · rename_i hp
    split at h
    · cases h
      have h7 : 7 ≤ s.length := by
        have := isPrefixOf_length hp
        simpa using this
      have hd : (List.dropWhile isWs (s.drop 7)).length ≤ (s.drop 7).length :=
        (List.dropWhile_sublist _).length_le
      simp only [List.length_drop] at hd ⊢
      omega
    · cases h
  · cases h

lemma collapseImagePairsF_nil (fuel : Nat) : collapseImagePairsF fuel [] = [] := by
  cases fuel <;> rfl

lemma collapseImagePairsF_step {s rest : List Char} (fuel : Nat)
    (h : matchImagePair s = some rest) :
    collapseImagePairsF (fuel + 1) s = imageTok ++ collapseImagePairsF fuel rest := by
  cases s with
  | nil => rw [matchImagePair_nil] at h; cases h
  | cons c cs => rw [collapseImagePairsF, h]

lemma collapseImagePairsF_skip {c : Char} {cs : List Char} (fuel : Nat)
    (h : matchImagePair (c :: cs) = none) :
    collapseImagePairsF (fuel + 1) (c :: cs) = c :: collapseImagePairsF fuel cs := by
  rw [collapseImagePairsF, h]

lemma collapseImagePairsF_id_of_no_match :
    ∀ (fuel : Nat) (s : List Char),
      (∀ i, matchImagePair (s.drop i) = none) → collapseImagePairsF fuel s = s := by
  intro fuel
  induction fuel with
  | zero => intro s _; rfl
  | succ n ih =>
    intro s hno
    cases s with
    | nil => rfl
    | cons c cs =>
      have h0 := hno 0
      rw [List.drop_zero] at h0
      rw [collapseImagePairsF, h0]
      refine congrArg (c :: ·) (ih cs (fun i => ?_))
      have hi := hno (i + 1)
      simpa using hi

lemma matchImagePair_drop_tok : ∀ i, matchImagePair (imageTok.drop i) = none := by
  intro i
  by_cases h7 : imageTok.length ≤ i
  · rw [List.drop_of_length_le h7]
    exact matchImagePair_nil
  · have : i < 7 := by simpa [imageTok] using h7
    interval_cases i <;> decide

lemma matchImagePair_tok_tok (r : List Char) :
    matchImagePair (imageTok ++ (imageTok ++ r)) = some r := by
  have htok : imageTok.length = 7 := rfl
  have h1 : imageTok.isPrefixOf (imageTok ++ (imageTok ++ r)) = true := by
    rw [isPrefixOf_eq_take, htok, ← htok, List.take_left]
    simp
  have hd : (imageTok ++ (imageTok ++ r)).drop 7 = imageTok ++ r := by
    rw [← htok, List.drop_left]
  have hw : (imageTok ++ r).dropWhile isWs = imageTok ++ r := by
    rw [show imageTok ++ r = '[' :: ("image]".data ++ r) from rfl]
    rw [List.dropWhile_cons]
    simp [show isWs '[' = false from by decide]
  have h2 : imageTok.isPrefixOf (imageTok ++ r) = true := by
    rw [isPrefixOf_eq_take, htok, ← htok, List.take_left]
    simp
  have hd2 : (imageTok ++ r).drop 7 = r := by
    rw [← htok, List.drop_left]
  simp only [matchImagePair, h1, if_true, hd, hw, h2, hd2]

lemma length_flatten_replicate_tok (n : Nat) :
    (List.flatten (List.replicate n imageTok)).length = 7 * n := by
  induction n with
  | zero => simp
  | succ m ih =>
    rw [List.replicate_succ, List.flatten_cons]
    simp only [List.length_append, ih]
    have htok : imageTok.length = 7 := rfl
    omega

lemma collapseImagePairsF_replicate :
    ∀ (n fuel : Nat), 7 * n ≤ fuel →
      collapseImagePairsF fuel (List.flatten (List.replicate n imageTok)) =
        List.flatten (List.replicate ((n + 1) / 2) imageTok) := by
  intro n
  induction n using Nat.strong_induction_on with
  | _ n ih =>
    match n with
    | 0 => intro fuel _; simpa using collapseImagePairsF_nil fuel
    | 1 =>
      intro fuel _
      have h1 : List.flatten (List.replicate 1 imageTok) = imageTok := by simp
      rw [h1]
      exact collapseImagePairsF_id_of_no_match fuel imageTok matchImagePair_drop_tok
    | n + 2 =>
      intro fuel hf
      have hs : List.flatten (List.replicate (n + 2) imageTok) =
          imageTok ++ (imageTok ++ List.flatten (List.replicate n imageTok)) := by
        rw [List.replicate_succ, List.replicate_succ, List.flatten_cons, List.flatten_cons]
      cases fuel with
      | zero => omega
      | succ m =>
        rw [hs, collapseImagePairsF_step m (matchImagePair_tok_tok _)]
        rw [ih n (by omega) m (by omega)]
        rw [show (n + 2 + 1) / 2 = (n + 1) / 2 + 1 from by omega]
        rw [List.replicate_succ, List.flatten_cons]

/-- Claim C3 (counterexample): three consecutive image tags normalize to
two adjacent `[image]` tokens — the collapse is a single left-to-right
non-overlapping pass, not a fixed point. -/
theorem extractTextFromHtml_adjacent_tokens_cex :
    extractTextFromHtml "<img a><img b><img c>".data = imageTok ++ imageTok := by
  decide

/-- Claim C3 (amended): the final collapse step halves placeholder runs
in a single left-to-right non-overlapping pass — a run of `n` adjacent
`[image]` tokens becomes `⌈n/2⌉` tokens — so two adjacent tokens
collapse to one, but runs of three or more leave adjacent tokens in the
output (`<img><img>` yields `[image]` while `<img><img><img>` yields
`[image][image]`). -/
theorem collapseImagePairs_single_pass :
    (∀ n : Nat,
      collapseImagePairs (List.flatten (List.replicate n imageTok)) =
        List.flatten (List.replicate ((n + 1) / 2) imageTok)) ∧
    extractTextFromHtml "<img><img>".data = imageTok ∧
    extractTextFromHtml "<img><img><img>".data = imageTok ++ imageTok := by
  refine ⟨?_, by decide, by decide⟩
  intro n
  unfold collapseImagePairs
  exact collapseImagePairsF_replicate n _ (le_of_eq (length_flatten_replicate_tok n).symm)

/-! ### Invariants of the whitespace passes

The outputs of `extractTextFromHtml` are always fixed points of `trimL`
and `collapseWs`; the following lemmas establish this, so that the
amended idempotence theorem only needs the hypotheses the counterexample
actually forces. -/

lemma collapseWsF_nil (f : Nat) : collapseWsF f [] = [] := by
  cases f <;> rfl

lemma collapseWsF_length_le : ∀ (f : Nat) (s : List Char),
    (collapseWsF f s).length ≤ s.length := by
  intro f
  induction f with
  | zero => intro s; exact le_refl _
  | succ n ih =>
    intro s
    cases s with
    | nil => simp [collapseWsF]
    | cons c cs =>
      rw [collapseWsF]
      split
      · have h1 := ih (cs.dropWhile isWs)
        have h2 : (cs.dropWhile isWs).length ≤ cs.length := (List.dropWhile_sublist _).length_le
        simp only [List.length_cons]
        omega
      · have h1 := ih cs
        simp only [List.length_cons]
        omega

lemma collapseWsF_fuel : ∀ (f g : Nat) (s : List Char), s.length ≤ f → s.length ≤ g →
    collapseWsF f s = collapseWsF g s := by
  intro f
  induction f with
  | zero =>
    intro g s hf _
    have hs : s = [] := List.length_eq_zero.mp (Nat.le_zero.mp hf)
    subst hs
    rw [collapseWsF_nil, collapseWsF_nil]
  | succ n ih =>
    intro g s hf hg
    cases s with
    | nil => rw [collapseWsF_nil, collapseWsF_nil]
    | cons c cs =>
      cases g with
      | zero => simp at hg
      | succ m =>
        rw [collapseWsF, collapseWsF]
        by_cases hws : isWs c = true
        · rw [if_pos hws, if_pos hws]
          have h2 : (cs.dropWhile isWs).length ≤ cs.length := (List.dropWhile_sublist _).length_le
          simp only [List.length_cons] at hf hg
          rw [ih m (cs.dropWhile isWs) (by omega) (by omega)]
        · rw [if_neg hws, if_neg hws]
          simp only [List.length_cons] at hf hg
          rw [ih m cs (by omega) (by omega)]

lemma collapseWs_cons_ws {c : Char} (cs : List Char) (h : isWs c = true) :
    collapseWs (c :: cs) = ' ' :: collapseWs (cs.dropWhile isWs) := by
  show collapseWsF (c :: cs).length (c :: cs) = _
  rw [List.length_cons, collapseWsF, if_pos h]
  rw [collapseWsF_fuel cs.length (cs.dropWhile isWs).length (cs.dropWhile isWs)
    (List.dropWhile_sublist _).length_le (le_refl _)]
  rfl

lemma collapseWs_cons_not_ws {c : Char} (cs : List Char) (h : isWs c = false) :
    collapseWs (c :: cs) = c :: collapseWs cs := by
  show collapseWsF (c :: cs).length (c :: cs) = _
  rw [List.length_cons, collapseWsF, if_neg (by simp [h])]
  rfl

lemma collapseWs_fix_cons {c : Char} {cs : List Char} (h : collapseWs (c :: cs) = c :: cs) :
    collapseWs cs = cs ∧ (isWs c = true → c = ' ' ∧ cs.dropWhile isWs = cs) := by
  cases hws : isWs c with
  | false =>
    rw [collapseWs_cons_not_ws cs hws] at h
    injection h with _ h2
    exact ⟨h2, fun he => by simp [hws] at he⟩
  | true =>
    rw [collapseWs_cons_ws cs hws] at h
    injection h with h1 h2
    have hlen : (cs.dropWhile isWs).length = cs.length := by
      have l1 := collapseWsF_length_le (cs.dropWhile isWs).length (cs.dropWhile isWs)
      have l2 : (cs.dropWhile isWs).length ≤ cs.length := (List.dropWhile_sublist _).length_le
      rw [show collapseWsF (cs.dropWhile isWs).length (cs.dropWhile isWs) =
        collapseWs (cs.dropWhile isWs) from rfl, h2] at l1
      omega
    have hdw : cs.dropWhile isWs = cs := (List.dropWhile_sublist _).eq_of_length hlen
    rw [hdw] at h2
    exact ⟨h2, fun _ => ⟨h1.symm, hdw⟩⟩

lemma collapseWs_append_right : ∀ (pre s : List Char),
    collapseWs (pre ++ s) = pre ++ s → collapseWs s = s := by
  intro pre
  induction pre with
  | nil => intro s h; simpa using h
  | cons c cs ih =>
    intro s h
    rw [List.cons_append] at h
    exact ih s (collapseWs_fix_cons h).1

lemma collapseWs_append_nonws : ∀ (x y : List Char), (∀ c ∈ x, isWs c = false) →
    collapseWs y = y → collapseWs (x ++ y) = x ++ y := by
  intro x
  induction x with
  | nil => intro y _ hy; simpa using hy
  | cons c cs ih =>
    intro y hx hy
    rw [List.cons_append, collapseWs_cons_not_ws _ (hx c (by simp))]
    rw [ih y (fun d hd => hx d (by simp [hd])) hy]

lemma collapseWs_append_left : ∀ (s suf : List Char),
    collapseWs (s ++ suf) = s ++ suf → collapseWs s = s := by
  intro s
  induction s with
  | nil => intro suf _; rfl
  | cons c cs ih =>
    intro suf h
    rw [List.cons_append] at h
    obtain ⟨h1, h2⟩ := collapseWs_fix_cons h
    have hcs := ih suf h1
    cases hws : isWs c with
    | false => rw [collapseWs_cons_not_ws cs hws, hcs]
    | true =>
      obtain ⟨hc, hdw⟩ := h2 hws
      rw [collapseWs_cons_ws cs hws]
      have hcs' : cs.dropWhile isWs = cs := by
        cases cs with
        | nil => rfl
        | cons d ds =>
          rw [List.cons_append, List.dropWhile_cons] at hdw
          by_cases hd : isWs d = true
          · rw [if_pos hd] at hdw
            have hl : (List.dropWhile isWs (ds ++ suf)).length ≤ (ds ++ suf).length :=
              (List.dropWhile_sublist _).length_le
            rw [hdw] at hl
            simp at hl
          · rw [List.dropWhile_cons, if_neg hd]
      rw [hcs', hcs, hc]

lemma head_dropWhile_ws : ∀ {cs : List Char} {d : Char} {t : List Char},
    cs.dropWhile isWs = d :: t → isWs d = false := by
  intro cs
  induction cs with
  | nil => intro d t h; cases h
  | cons e es ih =>
    intro d t h
    rw [List.dropWhile_cons] at h
    split at h
    · exact ih h
    · rename_i he
      cases h
      simpa using he

lemma collapseWs_idem (s : List Char) : collapseWs (collapseWs s) = collapseWs s := by
  suffices h : ∀ (n : Nat) (s : List Char), s.length ≤ n →
      collapseWs (collapseWs s) = collapseWs s from h s.length s (le_refl _)
  intro n
  induction n with
  | zero =>
    intro s hs
    have : s = [] := List.length_eq_zero.mp (Nat.le_zero.mp hs)
    subst this
    rfl
  | succ n ih =>
    intro s hs
    cases s with
    | nil => rfl
    | cons c cs =>
      simp only [List.length_cons] at hs
      cases hws : isWs c with
      | false =>
        rw [collapseWs_cons_not_ws cs hws, collapseWs_cons_not_ws _ hws,
          ih cs (by omega)]
      | true =>
        rw [collapseWs_cons_ws cs hws]
        have hz : (collapseWs (cs.dropWhile isWs)).dropWhile isWs =
            collapseWs (cs.dropWhile isWs) := by
          cases hw : cs.dropWhile isWs with
          | nil => rfl
          | cons d t =>
            have hd : isWs d = false := head_dropWhile_ws hw
            rw [collapseWs_cons_not_ws t hd, List.dropWhile_cons, if_neg (by simp [hd])]
        rw [collapseWs_cons_ws _ (by decide), hz]
        have hl : (cs.dropWhile isWs).length ≤ n := by
          have : (cs.dropWhile isWs).length ≤ cs.length := (List.dropWhile_sublist _).length_le
          omega
        rw [ih (cs.dropWhile isWs) hl]

lemma dropWhile_ws_idem (x : List Char) :
    (x.dropWhile isWs).dropWhile isWs = x.dropWhile isWs := by
  induction x with
  | nil => rfl
  | cons c t ih =>
    rw [List.dropWhile_cons]
    split
    · exact ih
    · rename_i hc
      rw [List.dropWhile_cons, if_neg hc]

lemma leftTrimmed_append_left {y t : List Char}
    (h : List.dropWhile isWs (y ++ t) = y ++ t) : y.dropWhile isWs = y := by
  cases y with
  | nil => rfl
  | cons d ds =>
    rw [List.cons_append, List.dropWhile_cons] at h
    by_cases hd : isWs d = true
    · rw [if_pos hd] at h
      have hl : (List.dropWhile isWs (ds ++ t)).length ≤ (ds ++ t).length :=
        (List.dropWhile_sublist _).length_le
      rw [h] at hl
      simp at hl
    · rw [List.dropWhile_cons, if_neg hd]

lemma trimL_reverse_eq (x : List Char) :
    (trimL x).reverse = List.dropWhile isWs ((x.dropWhile isWs).reverse) := by
  unfold trimL
  rw [List.reverse_reverse]

lemma trimL_right_trimmed (x : List Char) :
    List.dropWhile isWs (trimL x).reverse = (trimL x).reverse := by
  rw [trimL_reverse_eq]
  exact dropWhile_ws_idem _

lemma trimL_append_eq (x : List Char) :
    ∃ pre : List Char, trimL x ++ pre = x.dropWhile isWs := by
  obtain ⟨pre2, hpre2⟩ : List.IsSuffix ((trimL x).reverse) ((x.dropWhile isWs).reverse) := by
    rw [trimL_reverse_eq]
    exact List.dropWhile_suffix isWs
  refine ⟨pre2.reverse, ?_⟩
  have h := congrArg List.reverse hpre2
  simpa using h

lemma trimL_left_trimmed (x : List Char) :
    List.dropWhile isWs (trimL x) = trimL x := by
  obtain ⟨pre, hpre⟩ := trimL_append_eq x
  have h1 : List.dropWhile isWs (trimL x ++ pre) = trimL x ++ pre := by
    rw [hpre]
    exact dropWhile_ws_idem x
  exact leftTrimmed_append_left h1

lemma collapseWs_trimL_fixed (x : List Char) (hx : collapseWs x = x) :
    collapseWs (trimL x) = trimL x := by
  have h1 : collapseWs (x.dropWhile isWs) = x.dropWhile isWs := by
    obtain ⟨pre, hpre⟩ :=
      (List.dropWhile_suffix isWs : List.IsSuffix (x.dropWhile isWs) x)
    exact collapseWs_append_right pre _ (by rw [hpre]; exact hx)
  obtain ⟨pre2, hpre2⟩ := trimL_append_eq x
  exact collapseWs_append_left _ _ (by rw [hpre2]; exact h1)

lemma matchImagePair_rest_suffix {s rest : List Char} (h : matchImagePair s = some rest) :
    List.IsSuffix rest s := by
  simp only [matchImagePair] at h
  split at h
  · split at h
    · cases h
      exact ((List.drop_suffix _ _).trans (List.dropWhile_suffix _)).trans
        (List.drop_suffix _ _)
    · cases h
  · cases h

lemma collapseImagePairsF_ne_nil : ∀ (f : Nat) {s : List Char},
    collapseImagePairsF f s = [] → s = [] := by
  intro f s h
  cases f with
  | zero => exact h
  | succ n =>
    cases s with
    | nil => rfl
    | cons c cs =>
      rw [collapseImagePairsF] at h
      cases hm : matchImagePair (c :: cs) with
      | some rest => rw [hm] at h; simp [imageTok] at h
      | none => rw [hm] at h; cases h

lemma collapseImagePairsF_head : ∀ (f : Nat) (s : List Char),
    (collapseImagePairsF f s).head? = s.head? ∨
      (collapseImagePairsF f s).head? = some '[' := by
  intro f s
  cases f with
  | zero => exact Or.inl rfl
  | succ n =>
    cases s with
    | nil => exact Or.inl rfl
    | cons c cs =>
      rw [collapseImagePairsF]
      cases hm : matchImagePair (c :: cs) with
      | some rest => exact Or.inr rfl
      | none => exact Or.inl rfl

lemma collapseImagePairsF_getLast : ∀ (f : Nat) (s : List Char),
    (collapseImagePairsF f s).getLast? = s.getLast? ∨
      (collapseImagePairsF f s).getLast? = some ']' := by
  intro f
  induction f with
  | zero => intro s; exact Or.inl rfl
  | succ n ih =>
    intro s
    cases s with
    | nil => exact Or.inl rfl
    | cons c cs =>
      cases hm : matchImagePair (c :: cs) with
      | some rest =>
        rw [collapseImagePairsF_step n hm]
        by_cases hre : collapseImagePairsF n rest = []
        · rw [hre, List.append_nil]
          right
          decide
        · rw [List.getLast?_append]
          cases h2 : (collapseImagePairsF n rest).getLast? with
          | none =>
            exfalso
            rw [List.getLast?_eq_none_iff] at h2
            exact hre h2
          | some y =>
            rcases ih rest with h1 | h1 <;> rw [h2] at h1
            · left
              have hrest_ne : rest ≠ [] := by
                intro he
                subst he
                rw [collapseImagePairsF_nil] at hre
                exact hre rfl
              obtain ⟨pre, hpre⟩ := matchImagePair_rest_suffix hm
              rw [← hpre, List.getLast?_append, ← h1]
              rfl
            · right
              exact h1
      | none =>
        rw [collapseImagePairsF_skip n hm]
        by_cases hre : collapseImagePairsF n cs = []
        · have hcs : cs = [] := collapseImagePairsF_ne_nil n hre
          subst hcs
          rw [collapseImagePairsF_nil]
          exact Or.inl rfl
        · have hcs_ne : cs ≠ [] := fun he => hre (by rw [he, collapseImagePairsF_nil])
          have hl : (c :: collapseImagePairsF n cs).getLast? =
              (collapseImagePairsF n cs).getLast? := by
            cases hF : collapseImagePairsF n cs with
            | nil => exact absurd hF hre
            | cons d ds => rw [List.getLast?_cons_cons]
          have hr : (c :: cs).getLast? = cs.getLast? := by
            cases cs with
            | nil => exact absurd rfl hcs_ne
            | cons d ds => rw [List.getLast?_cons_cons]
          rw [hl, hr]
          exact ih cs

lemma collapseImagePairsF_ws_fixed : ∀ (f : Nat) (s : List Char), collapseWs s = s →
    collapseWs (collapseImagePairsF f s) = collapseImagePairsF f s := by
  intro f
  induction f with
  | zero => intro s h; exact h
  | succ n ih =>
    intro s h
    cases s with
    | nil => rfl
    | cons c cs =>
      cases hm : matchImagePair (c :: cs) with
      | some rest =>
        rw [collapseImagePairsF_step n hm]
        obtain ⟨pre, hpre⟩ := matchImagePair_rest_suffix hm
        have hrest : collapseWs rest = rest :=
          collapseWs_append_right pre rest (by rw [hpre]; exact h)
        exact collapseWs_append_nonws imageTok _ (by decide) (ih rest hrest)
      | none =>
        rw [collapseImagePairsF_skip n hm]
        obtain ⟨hcs, himp⟩ := collapseWs_fix_cons h
        have hF := ih cs hcs
        cases hws : isWs c with
        | false => rw [collapseWs_cons_not_ws _ hws, hF]
        | true =>
          obtain ⟨hc, hdw⟩ := himp hws
          rw [collapseWs_cons_ws _ hws]
          have hhead : (collapseImagePairsF n cs).dropWhile isWs =
              collapseImagePairsF n cs := by
            cases hF0 : collapseImagePairsF n cs with
            | nil => rfl
            | cons d ds =>
              have hd : isWs d = false := by
                rcases collapseImagePairsF_head n cs with hh | hh <;> rw [hF0] at hh
                · cases cs with
                  | nil => rw [collapseImagePairsF_nil] at hF0; cases hF0
                  | cons e es =>
                    have he : isWs e = false := head_dropWhile_ws hdw
                    simp only [List.head?_cons, Option.some.injEq] at hh
                    rw [hh]
                    exact he
                · simp only [List.head?_cons, Option.some.injEq] at hh
                  rw [hh]
                  decide
              rw [List.dropWhile_cons, if_neg (by simp [hd])]
          rw [hhead, hF, hc]

lemma collapseImagePairs_trim_fixed {q : List Char}
    (hL : List.dropWhile isWs q = q)
    (hR : List.dropWhile isWs q.reverse = q.reverse) :
    trimL (collapseImagePairs q) = collapseImagePairs q := by
  have hleft : List.dropWhile isWs (collapseImagePairs q) = collapseImagePairs q := by
    cases ho : collapseImagePairs q with
    | nil => rfl
    | cons d ds =>
      unfold collapseImagePairs at ho
      have hd : isWs d = false := by
        rcases collapseImagePairsF_head q.length q with hh | hh <;> rw [ho] at hh
        · cases q with
          | nil => rw [collapseImagePairsF_nil] at ho; cases ho
          | cons e es =>
            have he : isWs e = false := head_dropWhile_ws hL
            simp only [List.head?_cons, Option.some.injEq] at hh
            rw [hh]
            exact he
        · simp only [List.head?_cons, Option.some.injEq] at hh
          rw [hh]
          decide
      rw [List.dropWhile_cons, if_neg (by simp [hd])]
  have hright : List.dropWhile isWs (collapseImagePairs q).reverse =
      (collapseImagePairs q).reverse := by
    cases hrev : (collapseImagePairs q).reverse with
    | nil => rfl
    | cons d ds =>
      have hgl : (collapseImagePairs q).getLast? = some d := by
        rw [← List.head?_reverse, hrev]
        rfl
      have hd : isWs d = false := by
        rcases collapseImagePairsF_getLast q.length q with hh | hh <;>
          rw [show collapseImagePairsF q.length q = collapseImagePairs q from rfl, hgl] at hh
        · have hqrev : q.reverse.head? = some d := by
            rw [List.head?_reverse, ← hh]
          cases hqr : q.reverse with
          | nil => rw [hqr] at hqrev; cases hqrev
          | cons e es =>
            have he : isWs e = false := by
              rw [hqr] at hR
              exact head_dropWhile_ws hR
            rw [hqr] at hqrev
            simp only [List.head?_cons, Option.some.injEq] at hqrev
            rw [← hqrev]
            exact he
        · simp only [Option.some.injEq] at hh
          rw [hh]
          decide
      rw [List.dropWhile_cons, if_neg (by simp [hd])]
  unfold trimL
  rw [hleft, hright, List.reverse_reverse]

/-- Every output of the normalizer is a fixed point of `collapseWs`. -/
lemma extractTextFromHtml_ws_fixed (s : List Char) :
    collapseWs (extractTextFromHtml s) = extractTextFromHtml s := by
  simp only [extractTextFromHtml]
  split
  · rfl
  · split
    · rfl
    · have hq : collapseWs (trimL (collapseWs (decodeEntities (stripTags
          (replacePairTag "canvas".data (replacePairTag "svg".data (replacePairTag "figure".data
            (replacePairTag "picture".data (replaceOpenTag "image".data
              (replaceOpenTag "img".data (trimL s))))))))))) =
          trimL (collapseWs (decodeEntities (stripTags
          (replacePairTag "canvas".data (replacePairTag "svg".data (replacePairTag "figure".data
            (replacePairTag "picture".data (replaceOpenTag "image".data
              (replaceOpenTag "img".data (trimL s)))))))))) :=
        collapseWs_trimL_fixed _ (collapseWs_idem _)
      exact collapseImagePairsF_ws_fixed _ _ hq

/-- Every output of the normalizer is a fixed point of `trimL`. -/
lemma extractTextFromHtml_trim_fixed (s : List Char) :
    trimL (extractTextFromHtml s) = extractTextFromHtml s := by
  simp only [extractTextFromHtml]
  split
  · rfl
  · split
    · rfl
    · exact collapseImagePairs_trim_fixed (trimL_left_trimmed _) (trimL_right_trimmed _)


/-! ### C4: idempotence of the normalizer -/

/-- Claim C4 (counterexample): the normalizer is not idempotent.
`"&lt;b&gt;"` normalizes to `"<b>"`, and a second run strips the
reintroduced markup, yielding `""`. -/
theorem extractTextFromHtml_not_idempotent :
    extractTextFromHtml (extractTextFromHtml "&lt;b&gt;".data) ≠
      extractTextFromHtml "&lt;b&gt;".data := by
  decide

/-- Claim C4 (amended): the normalizer is idempotent on every input
whose output contains no `<` and no `&` and is a fixed point of the
placeholder-collapse pass (outputs are always fixed points of the trim
and whitespace-collapse passes, by `extractTextFromHtml_trim_fixed` and
`extractTextFromHtml_ws_fixed`); idempotence fails in general because
decoded entities (and angle brackets that survive the first run) are
treated as markup by the second run, and runs of three or more
placeholders leave collapsible pairs behind. -/
theorem extractTextFromHtml_idempotent_of_fixed (s : List Char)
    (h1 : '<' ∉ extractTextFromHtml s) (h2 : '&' ∉ extractTextFromHtml s)
    (h5 : collapseImagePairs (extractTextFromHtml s) = extractTextFromHtml s) :
    extractTextFromHtml (extractTextFromHtml s) = extractTextFromHtml s := by
  have h3 : trimL (extractTextFromHtml s) = extractTextFromHtml s :=
    extractTextFromHtml_trim_fixed s
  have h4 : collapseWs (extractTextFromHtml s) = extractTextFromHtml s :=
    extractTextFromHtml_ws_fixed s
  by_cases hoe : extractTextFromHtml s = []
  · rw [hoe]; rfl
  · have hto : trimL (extractTextFromHtml s) ≠ [] := by rw [h3]; exact hoe
    have ht1 : '<' ∉ trimL (extractTextFromHtml s) := by rw [h3]; exact h1
    have ht3 : '&' ∉ trimL (extractTextFromHtml s) := by rw [h3]; exact h2
    rw [extractTextFromHtml_eq_of_clean hoe hto ht1 ht3, h3, h4, h3, h5]

/-- Witness for the amended C4 theorem. -/
theorem extractTextFromHtml_idempotent_of_fixed_witness :
    ('<' ∉ extractTextFromHtml "hello world".data ∧
      '&' ∉ extractTextFromHtml "hello world".data ∧
      collapseImagePairs (extractTextFromHtml "hello world".data) =
        extractTextFromHtml "hello world".data) ∧
    extractTextFromHtml (extractTextFromHtml "hello world".data) =
      extractTextFromHtml "hello world".data :=
  ⟨by decide, extractTextFromHtml_idempotent_of_fixed "hello world".data (by decide) (by decide)
    (by decide)⟩

end FileProcessing
